import Mathlib

/-!
# Verification of the four Ohm expression grammar/semantics pairs

Shallow embedding of `src/experiment.js`: the AST classes (`Program`,
`BinaryExpression`, `IntegerLiteral`, `Identifier`), the list-to-tree helper
`makeBinaryExpression` used by variants 2 and 3 (the current revision consumes
its arrays destructively via `shift()`, so it is embedded as an explicit
state-passing function), the `precedence` table, the precedence-climbing
helper `makeTree` of variant 4 (embedded with a fuel parameter; the JS `while`
loops are modelled by `mtOuter`/`mtInner`), and the four grammars together
with their tree-building semantics.

The grammars are embedded as recursive-descent parsers over a token list.
All four grammars share identical lexical rules (`number = digit+`,
`id = letter alnum*`, single-character operators, and Ohm's implicit space
skipping between syntactic-rule items), which the single `tokenize` function
captures (ASCII letters stand in for Ohm's Unicode `letter`; no claim input
leaves ASCII).  Each parser carries a parenthesis-depth fuel that is consumed
exactly when a `"("` token is entered, so the four variants consume fuel at
identical points; the top-level entry points supply fuel `tokens.length + 1`,
which exceeds any possible nesting depth since every nesting level consumes
one `"("` token.
-/

namespace OhmExpr

/-- AST node variants: the JS classes `BinaryExpression(left, op, right)`,
`IntegerLiteral(value)` and `Identifier(name)`.  `IntegerLiteral` stores the
numeric value produced by `+this.sourceString` on the digit run. -/
inductive Expr where
  | BinaryExpression (left : Expr) (op : String) (right : Expr)
  | IntegerLiteral (value : Nat)
  | Identifier (name : String)
deriving DecidableEq

/-- `class Program { constructor(expression) {this.body = expression;} }` -/
structure Program where
  body : Expr
deriving DecidableEq

/-- `toString`: `BinaryExpression` prints as `(${this.op} ${this.left} ${this.right})`,
`IntegerLiteral` as `${this.value}`, `Identifier` as its name.

`Nat.repr` is an exact-integer idealization of JS `${value}`: the JS value is
a float64, and ECMAScript prints magnitudes at or above 10^21 in exponential
notation (for example the value 10^22 prints as `"1e+22"`), so the decimal
form used here is faithful only for values below 10^21 that are exactly
representable; see `jsPow10Render` for the model of the actual JS rendering
on the values these claims exercise. -/
def Expr.render : Expr → String
  | .BinaryExpression l op r => "(" ++ op ++ " " ++ l.render ++ " " ++ r.render ++ ")"
  | .IntegerLiteral v => Nat.repr v
  | .Identifier n => n

/-- `Program.toString() { return this.body.toString(); }` -/
def Program.render (p : Program) : String := p.body.render

/-- JS `[].shift()` returns `undefined`, and `undefined` interpolates into a
template string as `"undefined"`; this value models that case (it is never
reached from the parsers, whose operator and operand lists have equal
length). -/
def undefinedExpr : Expr := Expr.Identifier "undefined"

/-- State-passing embedding of the list-to-tree helper of variants 2 and 3:

```js
function makeBinaryExpression(result, ops, rest) {
  while (ops.length > 0) {
    result = new BinaryExpression(result, ops.shift(), rest.shift());
  }
  return result;
}
```

The JS `shift()` calls mutate the caller's arrays, so the embedding returns
the final contents of `ops` and `rest` alongside the result. -/
def makeBinaryExpressionS : Expr → List String → List Expr → Expr × List String × List Expr
  | result, [], rest => (result, [], rest)
  | result, op :: ops, rest =>
      makeBinaryExpressionS
        (Expr.BinaryExpression result op (rest.headD undefinedExpr)) ops rest.tail

/-- The value computed by `makeBinaryExpression` (first component of the
state-passing embedding). -/
def makeBinaryExpression (result : Expr) (ops : List String) (rest : List Expr) : Expr :=
  (makeBinaryExpressionS result ops rest).1

/-- `const precedence = {'+': 0, '-': 0, '*': 1, '/': 1};` — a JS object
lookup yields `undefined` on a missing key, modelled by `none`. -/
def precedence (op : String) : Option Nat :=
  if op = "+" then some 0
  else if op = "-" then some 0
  else if op = "*" then some 1
  else if op = "/" then some 1
  else none

/-!
## The `makeTree` helper of variant 4

```js
function makeTree(left, ops, rights, minPrecedence = 0) {
  while (ops.length > 0 && precedence[ops[0]] >= minPrecedence) {
    let op = ops.shift();
    let right = rights.shift();
    while (ops.length > 0 && precedence[ops[0]] > precedence[op]) {
      right = makeTree(right, ops, rights, precedence[ops[0]])
    }
    left = new BinaryExpression(left, op, right);
  }
  return left;
}
```

`mtOuter` embeds the outer `while` (one constructor of `makeTree` itself),
`mtInner` the inner `while`; both thread the mutated `ops`/`rights` arrays
explicitly and carry a fuel parameter that decreases at every call.  In JS,
`undefined >= n` and `undefined > n` and `n > undefined` are all `false`, so a
lookup failure makes the corresponding loop guard false.  `makeTree` runs the
loops with fuel `2 * ops.length + 1`, which is proved sufficient below
(`mtOuter_fuel_irrel`).
-/

mutual

/-- Outer loop of `makeTree` (fuel-indexed). -/
def mtOuter : Nat → Expr → List String → List Expr → Nat → Expr × List String × List Expr
  | 0, left, ops, rights, _ => (left, ops, rights)
  | fuel + 1, left, ops, rights, minPrec =>
    match ops with
    | [] => (left, ops, rights)
    | o :: ops' =>
      match precedence o with
      | some p =>
        if minPrec ≤ p then
          let right0 := rights.headD undefinedExpr
          let r1 := mtInner fuel right0 ops' rights.tail o
          mtOuter fuel (Expr.BinaryExpression left o r1.1) r1.2.1 r1.2.2 minPrec
        else (left, ops, rights)
      | none => (left, ops, rights)

/-- Inner loop of `makeTree` (fuel-indexed): repeatedly recurses into the
outer loop while the next operator binds tighter than `op`. -/
def mtInner : Nat → Expr → List String → List Expr → String → Expr × List String × List Expr
  | 0, right, ops, rights, _ => (right, ops, rights)
  | fuel + 1, right, ops, rights, op =>
    match ops with
    | [] => (right, ops, rights)
    | o2 :: _ =>
      match precedence o2, precedence op with
      | some q2, some q =>
        if q < q2 then
          let r1 := mtOuter fuel right ops rights q2
          mtInner fuel r1.1 r1.2.1 r1.2.2 op
        else (right, ops, rights)
      | some _, none => (right, ops, rights)
      | none, _ => (right, ops, rights)

end

/-- `makeTree(left, ops, rights, minPrecedence)` with sufficient fuel.
Variant 4's semantics calls it with the default `minPrecedence = 0`. -/
def makeTree (left : Expr) (ops : List String) (rights : List Expr) (minPrec : Nat) : Expr :=
  (mtOuter (2 * ops.length + 1) left ops rights minPrec).1

/-!
## Lexical rules

All four grammars share `addop = "+" | "-"`, `mulop = "*" | "/"`,
`id = letter alnum*`, `number = digit+`; grammar 4 adds
`binop = "+" | "-" | "*" | "/"`.  Syntactic (capitalised) Ohm rules skip
spaces between items, which the tokenizer performs.
-/

/-- Tokens of the expression language. -/
inductive Token where
  | num (value : Nat)
  | id (name : String)
  | op (symbol : String)
  | lparen
  | rparen
deriving DecidableEq

/-- Numeric value of a digit run, as computed by JS `+sourceString`. -/
def digitsVal (ds : List Char) : Nat := ds.foldl (fun a c => 10 * a + (c.toNat - 48)) 0

/-- Tokenizer: spaces are skipped, `number = digit+` and `id = letter alnum*`
are maximal munch (PEG repetition is possessive), the four operator characters
and parentheses are single-character tokens, anything else fails the match.
The fuel is at least the remaining character count plus one, and each step
consumes at least one character. -/
def tokenizeAux : Nat → List Char → Option (List Token)
  | 0, _ => none
  | _ + 1, [] => some []
  | fuel + 1, c :: cs =>
    if c.isWhitespace then tokenizeAux fuel cs
    else if c.isDigit then
      (tokenizeAux fuel ((c :: cs).dropWhile Char.isDigit)).map
        (fun ts => Token.num (digitsVal ((c :: cs).takeWhile Char.isDigit)) :: ts)
    else if c.isAlpha then
      (tokenizeAux fuel (cs.dropWhile Char.isAlphanum)).map
        (fun ts => Token.id (String.mk (c :: cs.takeWhile Char.isAlphanum)) :: ts)
    else if c = '(' then (tokenizeAux fuel cs).map (fun ts => Token.lparen :: ts)
    else if c = ')' then (tokenizeAux fuel cs).map (fun ts => Token.rparen :: ts)
    else if c = '+' then (tokenizeAux fuel cs).map (fun ts => Token.op "+" :: ts)
    else if c = '-' then (tokenizeAux fuel cs).map (fun ts => Token.op "-" :: ts)
    else if c = '*' then (tokenizeAux fuel cs).map (fun ts => Token.op "*" :: ts)
    else if c = '/' then (tokenizeAux fuel cs).map (fun ts => Token.op "/" :: ts)
    else none

/-- Tokenize a source string. -/
def tokenize (s : String) : Option (List Token) := tokenizeAux (s.length + 1) s.data

/-- `addop = "+" | "-"`, yielding the matched source string. -/
def addopTok : Token → Option String
  | .op s => if s = "+" ∨ s = "-" then some s else none
  | _ => none

/-- `mulop = "*" | "/"`. -/
def mulopTok : Token → Option String
  | .op s => if s = "*" ∨ s = "/" then some s else none
  | _ => none

/-- `binop = "+" | "-" | "*" | "/"` (grammar 4 only). -/
def binopTok : Token → Option String
  | .op s => if s = "+" ∨ s = "-" ∨ s = "*" ∨ s = "/" then some s else none
  | _ => none

/-!
## The four grammars as token-level parsers

Each parser returns the semantic value (the AST already built by the
variant's actions) together with the unconsumed tokens.  `opStar` embeds a
PEG iteration `(sep item)*`: greedy, and an iteration whose `item` part fails
consumes nothing (the group is atomic).  Its result mirrors the two parallel
iteration nodes an Ohm action receives: the list of matched separator source
strings (`_terminal` returns `sourceString`) and the list of item values.
Its fuel is the token count at loop entry; each iteration consumes at least
the separator token.
-/

/-- PEG iteration `(sep item)*`, returning the separator strings and item
values in order, plus the remaining tokens. -/
def opStar (item : List Token → Option (Expr × List Token)) (sep : Token → Option String) :
    Nat → List Token → (List String × List Expr) × List Token
  | 0, ts => (([], []), ts)
  | _ + 1, [] => (([], []), [])
  | fuel + 1, t :: ts =>
    match sep t with
    | some o =>
      match item ts with
      | some (x, ts') =>
        let r := opStar item sep fuel ts'
        ((o :: r.1.1, x :: r.1.2), r.2)
      | none => (([], []), t :: ts)
    | none => (([], []), t :: ts)

/-- The shared primary/factor rule `"(" Exp ")" --parens | number | id` with
its actions: `Factor_parens` returns the inner expression's tree, `number`
builds `IntegerLiteral`, `id` builds `Identifier`.  `pExp` is the variant's
expression parser at one less parenthesis depth. -/
def pAtom (pExp : List Token → Option (Expr × List Token)) :
    List Token → Option (Expr × List Token)
  | Token.lparen :: ts =>
    match pExp ts with
    | some (e, Token.rparen :: ts') => some (e, ts')
    | _ => none
  | Token.num v :: ts => some (Expr.IntegerLiteral v, ts)
  | Token.id n :: ts => some (Expr.Identifier n, ts)
  | _ => none

/-!
### Grammar 1 — left recursive

```
Exp  = Exp addop Term --binary | Term
Term = Term mulop Factor --binary | Factor
```

Ohm resolves the left recursion by seed growing: it matches the non-recursive
alternative first and then repeatedly extends the seed with `addop Term`,
each extension invoking the `Exp_binary` action
`new BinaryExpression(left.tree(), op.sourceString, right.tree())`, so the
tree nests to the left.  `grow1` embeds one growing loop.
-/

/-- Seed-growing loop for one left-recursive rule of grammar 1: extend `acc`
with `sep item` as long as both match, nesting `BinaryExpression` leftward. -/
def grow1 (item : List Token → Option (Expr × List Token)) (sep : Token → Option String) :
    Nat → Expr → List Token → Expr × List Token
  | 0, acc, ts => (acc, ts)
  | _ + 1, acc, [] => (acc, [])
  | fuel + 1, acc, t :: ts =>
    match sep t with
    | some o =>
      match item ts with
      | some (x, ts') => grow1 item sep fuel (Expr.BinaryExpression acc o x) ts'
      | none => (acc, t :: ts)
    | none => (acc, t :: ts)

/-- Grammar 1 `Term = Term mulop Factor --binary | Factor`. -/
def pTerm1 (pExp : List Token → Option (Expr × List Token)) (ts : List Token) :
    Option (Expr × List Token) :=
  match pAtom pExp ts with
  | some (f, ts') => some (grow1 (pAtom pExp) mulopTok ts'.length f ts')
  | none => none

/-- Grammar 1 `Exp = Exp addop Term --binary | Term` at fixed parenthesis
depth. -/
def pExpCore1 (pExp : List Token → Option (Expr × List Token)) (ts : List Token) :
    Option (Expr × List Token) :=
  match pTerm1 pExp ts with
  | some (t, ts') => some (grow1 (pTerm1 pExp) addopTok ts'.length t ts')
  | none => none

/-- Grammar 1 expression parser, fuelled by parenthesis depth. -/
def pExp1 : Nat → List Token → Option (Expr × List Token)
  | 0, _ => none
  | d + 1, ts => pExpCore1 (pExp1 d) ts

/-!
### Grammar 2 — iterative PEG style

```
Exp  = Term (addop Term)*
Term = Factor (mulop Factor)*
```

with actions `Exp(left, op, right)` and `Term(left, op, right)` both calling
`makeBinaryExpression(left.tree(), op.tree(), right.tree())`.
-/

/-- Grammar 2 `Term = Factor (mulop Factor)*` with its action. -/
def pTerm2 (pExp : List Token → Option (Expr × List Token)) (ts : List Token) :
    Option (Expr × List Token) :=
  match pAtom pExp ts with
  | some (f, ts') =>
    let r := opStar (pAtom pExp) mulopTok ts'.length ts'
    some (makeBinaryExpression f r.1.1 r.1.2, r.2)
  | none => none

/-- Grammar 2 `Exp = Term (addop Term)*` with its action, at fixed
parenthesis depth. -/
def pExpCore2 (pExp : List Token → Option (Expr × List Token)) (ts : List Token) :
    Option (Expr × List Token) :=
  match pTerm2 pExp ts with
  | some (t, ts') =>
    let r := opStar (pTerm2 pExp) addopTok ts'.length ts'
    some (makeBinaryExpression t r.1.1 r.1.2, r.2)
  | none => none

/-- Grammar 2 expression parser, fuelled by parenthesis depth. -/
def pExp2 : Nat → List Token → Option (Expr × List Token)
  | 0, _ => none
  | d + 1, ts => pExpCore2 (pExp2 d) ts

/-!
### Grammar 3 — parameterized rules

```
Exp  = NonemptyListOf<Term, addop>
Term = NonemptyListOf<Factor, mulop>
```

Ohm's built-in `NonemptyListOf<item, sep>` is `item (sep item)*`; the single
action `NonemptyListOf(left, op, right)` calls `makeBinaryExpression` and is
dispatched generically at both instantiations.
-/

/-- Ohm's `NonemptyListOf<item, sep>` together with semantics 3's
`NonemptyListOf` action. -/
def pNonemptyListOf (item : List Token → Option (Expr × List Token))
    (sep : Token → Option String) (ts : List Token) : Option (Expr × List Token) :=
  match item ts with
  | some (x, ts') =>
    let r := opStar item sep ts'.length ts'
    some (makeBinaryExpression x r.1.1 r.1.2, r.2)
  | none => none

/-- Grammar 3 `Exp = NonemptyListOf<Term, addop>` with
`Term = NonemptyListOf<Factor, mulop>`, at fixed parenthesis depth. -/
def pExpCore3 (pExp : List Token → Option (Expr × List Token)) (ts : List Token) :
    Option (Expr × List Token) :=
  pNonemptyListOf (fun u => pNonemptyListOf (pAtom pExp) mulopTok u) addopTok ts

/-- Grammar 3 expression parser, fuelled by parenthesis depth. -/
def pExp3 : Nat → List Token → Option (Expr × List Token)
  | 0, _ => none
  | d + 1, ts => pExpCore3 (pExp3 d) ts

/-!
### Grammar 4 — flat rule with precedence climbing

```
Exp     = Primary (binop Primary)*
Primary = "(" Exp ")" --parens | number | id
```

with action `Exp(left, op, right)` calling
`makeTree(left.tree(), op.tree(), right.tree())` (default
`minPrecedence = 0`).
-/

/-- Grammar 4 `Exp = Primary (binop Primary)*` with its action, at fixed
parenthesis depth. -/
def pExpCore4 (pExp : List Token → Option (Expr × List Token)) (ts : List Token) :
    Option (Expr × List Token) :=
  match pAtom pExp ts with
  | some (f, ts') =>
    let r := opStar (pAtom pExp) binopTok ts'.length ts'
    some (makeTree f r.1.1 r.1.2 0, r.2)
  | none => none

/-- Grammar 4 expression parser, fuelled by parenthesis depth. -/
def pExp4 : Nat → List Token → Option (Expr × List Token)
  | 0, _ => none
  | d + 1, ts => pExpCore4 (pExp4 d) ts

/-- `Program = Exp end` with action `Program(body, _)` building `Program`:
tokenize, parse an expression, and require that all tokens were consumed. -/
def parseWith (pExp : Nat → List Token → Option (Expr × List Token)) (s : String) :
    Option Program :=
  match tokenize s with
  | some ts =>
    match pExp (ts.length + 1) ts with
    | some (e, []) => some ⟨e⟩
    | _ => none
  | none => none

/-- Variant 1: `semantics1(grammar1.match(s)).tree()`. -/
def parse1 (s : String) : Option Program := parseWith pExp1 s

/-- Variant 2: `semantics2(grammar2.match(s)).tree()`. -/
def parse2 (s : String) : Option Program := parseWith pExp2 s

/-- Variant 3: `semantics3(grammar3.match(s)).tree()`. -/
def parse3 (s : String) : Option Program := parseWith pExp3 s

/-- Variant 4: `semantics4(grammar4.match(s)).tree()`. -/
def parse4 (s : String) : Option Program := parseWith pExp4 s

/-- `semantics(grammar.match(s)).tree().toString()` for variant 1. -/
def run1 (s : String) : Option String := (parse1 s).map Program.render

/-- `semantics(grammar.match(s)).tree().toString()` for variant 2. -/
def run2 (s : String) : Option String := (parse2 s).map Program.render

/-- `semantics(grammar.match(s)).tree().toString()` for variant 3. -/
def run3 (s : String) : Option String := (parse3 s).map Program.render

/-- `semantics(grammar.match(s)).tree().toString()` for variant 4. -/
def run4 (s : String) : Option String := (parse4 s).map Program.render

/-!
## Basic lemmas about `makeBinaryExpression`
-/

theorem makeBinaryExpressionS_nil (r : Expr) (rest : List Expr) :
    makeBinaryExpressionS r [] rest = (r, [], rest) := rfl

theorem makeBinaryExpressionS_cons (r : Expr) (op : String) (ops : List String)
    (rest : List Expr) :
    makeBinaryExpressionS r (op :: ops) rest =
      makeBinaryExpressionS (Expr.BinaryExpression r op (rest.headD undefinedExpr)) ops
        rest.tail := rfl

/-- The helper fully consumes its operator array and drops one operand per
operator from the operand array. -/
theorem makeBinaryExpressionS_state (ops : List String) :
    ∀ (r : Expr) (rest : List Expr),
      (makeBinaryExpressionS r ops rest).2 = ([], rest.drop ops.length) := by
  induction ops with
  | nil => intro r rest; rfl
  | cons op ops ih =>
    intro r rest
    rw [makeBinaryExpressionS_cons, ih]
    cases rest <;> simp

/-- The value computed by `makeBinaryExpression` is the left fold of
`BinaryExpression` over the operator/operand pairs. -/
theorem makeBinaryExpression_eq_foldl (ops : List String) :
    ∀ (first : Expr) (rest : List Expr), ops.length ≤ rest.length →
      makeBinaryExpression first ops rest =
        (ops.zip rest).foldl (fun a p => Expr.BinaryExpression a p.1 p.2) first := by
  induction ops with
  | nil => intro first rest _; rfl
  | cons op ops ih =>
    intro first rest h
    cases rest with
    | nil => simp at h
    | cons r rest =>
      simp only [List.zip_cons_cons, List.foldl_cons]
      rw [makeBinaryExpression, makeBinaryExpressionS_cons]
      simp only [List.headD_cons, List.tail_cons]
      exact ih (Expr.BinaryExpression first op r) rest (by simpa using h)

/-!
## Case lemmas for the `makeTree` loops
-/

theorem mtOuter_zero (l : Expr) (ops : List String) (rights : List Expr) (m : Nat) :
    mtOuter 0 l ops rights m = (l, ops, rights) := rfl

theorem mtOuter_nil (k : Nat) (l : Expr) (rights : List Expr) (m : Nat) :
    mtOuter k l [] rights m = (l, [], rights) := by
  cases k <;> rfl

theorem mtOuter_cons_none {o : String} (h : precedence o = none) (k : Nat) (l : Expr)
    (ops : List String) (rights : List Expr) (m : Nat) :
    mtOuter k l (o :: ops) rights m = (l, o :: ops, rights) := by
  cases k with
  | zero => rfl
  | succ k => simp [mtOuter, h]

theorem mtOuter_cons_stop {o : String} {p : Nat} (h : precedence o = some p) {m : Nat}
    (hp : p < m) (k : Nat) (l : Expr) (ops : List String) (rights : List Expr) :
    mtOuter k l (o :: ops) rights m = (l, o :: ops, rights) := by
  cases k with
  | zero => rfl
  | succ k => simp [mtOuter, h, Nat.not_le.mpr hp]

theorem mtOuter_cons_step {o : String} {p : Nat} (h : precedence o = some p) {m : Nat}
    (hp : m ≤ p) (k : Nat) (l : Expr) (ops : List String) (rights : List Expr) :
    mtOuter (k + 1) l (o :: ops) rights m =
      mtOuter k
        (Expr.BinaryExpression l o (mtInner k (rights.headD undefinedExpr) ops rights.tail o).1)
        (mtInner k (rights.headD undefinedExpr) ops rights.tail o).2.1
        (mtInner k (rights.headD undefinedExpr) ops rights.tail o).2.2 m := by
  simp [mtOuter, h, hp]

theorem mtInner_zero (r : Expr) (ops : List String) (rights : List Expr) (op : String) :
    mtInner 0 r ops rights op = (r, ops, rights) := rfl

theorem mtInner_nil (k : Nat) (r : Expr) (rights : List Expr) (op : String) :
    mtInner k r [] rights op = (r, [], rights) := by
  cases k <;> rfl

theorem mtInner_cons_none {o2 : String} (h : precedence o2 = none) (k : Nat) (r : Expr)
    (ops : List String) (rights : List Expr) (op : String) :
    mtInner k r (o2 :: ops) rights op = (r, o2 :: ops, rights) := by
  cases k with
  | zero => rfl
  | succ k => simp [mtInner, h]

theorem mtInner_cons_noneop {o2 : String} {q2 : Nat} (h2 : precedence o2 = some q2)
    {op : String} (h : precedence op = none) (k : Nat) (r : Expr) (ops : List String)
    (rights : List Expr) :
    mtInner k r (o2 :: ops) rights op = (r, o2 :: ops, rights) := by
  cases k with
  | zero => rfl
  | succ k => simp [mtInner, h2, h]

theorem mtInner_cons_stop {o2 : String} {q2 : Nat} (h2 : precedence o2 = some q2)
    {op : String} {q : Nat} (h : precedence op = some q) (hq : q2 ≤ q) (k : Nat) (r : Expr)
    (ops : List String) (rights : List Expr) :
    mtInner k r (o2 :: ops) rights op = (r, o2 :: ops, rights) := by
  cases k with
  | zero => rfl
  | succ k => simp [mtInner, h2, h, Nat.not_lt.mpr hq]

theorem mtInner_cons_step {o2 : String} {q2 : Nat} (h2 : precedence o2 = some q2)
    {op : String} {q : Nat} (h : precedence op = some q) (hq : q < q2) (k : Nat) (r : Expr)
    (ops : List String) (rights : List Expr) :
    mtInner (k + 1) r (o2 :: ops) rights op =
      mtInner k (mtOuter k r (o2 :: ops) rights q2).1 (mtOuter k r (o2 :: ops) rights q2).2.1
        (mtOuter k r (o2 :: ops) rights q2).2.2 op := by
  simp [mtInner, h2, h, hq]

/-- Both loops only ever consume from their operator and operand arrays. -/
theorem mtCons : ∀ k : Nat,
    (∀ l ops rights m, (mtOuter k l ops rights m).2.1.length ≤ ops.length ∧
      (mtOuter k l ops rights m).2.2.length ≤ rights.length) ∧
    (∀ r ops rights op, (mtInner k r ops rights op).2.1.length ≤ ops.length ∧
      (mtInner k r ops rights op).2.2.length ≤ rights.length) := by
  intro k
  induction k with
  | zero => exact ⟨fun _ _ _ _ => ⟨le_rfl, le_rfl⟩, fun _ _ _ _ => ⟨le_rfl, le_rfl⟩⟩
  | succ k ih =>
    obtain ⟨ihO, ihI⟩ := ih
    constructor
    · intro l ops rights m
      cases ops with
      | nil => rw [mtOuter_nil]; exact ⟨le_rfl, le_rfl⟩
      | cons o ops' =>
        cases ho : precedence o with
        | none => rw [mtOuter_cons_none ho]; exact ⟨le_rfl, le_rfl⟩
        | some p =>
          by_cases hp : m ≤ p
          · rw [mtOuter_cons_step ho hp]
            have h1 := ihI (rights.headD undefinedExpr) ops' rights.tail o
            have h2 := ihO
              (Expr.BinaryExpression l o
                (mtInner k (rights.headD undefinedExpr) ops' rights.tail o).1)
              (mtInner k (rights.headD undefinedExpr) ops' rights.tail o).2.1
              (mtInner k (rights.headD undefinedExpr) ops' rights.tail o).2.2 m
            constructor
            · calc _ ≤ _ := h2.1
                _ ≤ ops'.length := h1.1
                _ ≤ (o :: ops').length := by simp
            · calc _ ≤ _ := h2.2
                _ ≤ rights.tail.length := h1.2
                _ ≤ rights.length := by cases rights <;> simp
          · rw [mtOuter_cons_stop ho (Nat.not_le.mp hp)]; exact ⟨le_rfl, le_rfl⟩
    · intro r ops rights op
      cases ops with
      | nil => rw [mtInner_nil]; exact ⟨le_rfl, le_rfl⟩
      | cons o2 ops' =>
        cases h2 : precedence o2 with
        | none => rw [mtInner_cons_none h2]; exact ⟨le_rfl, le_rfl⟩
        | some q2 =>
          cases h : precedence op with
          | none => rw [mtInner_cons_noneop h2 h]; exact ⟨le_rfl, le_rfl⟩
          | some q =>
            by_cases hq : q < q2
            · rw [mtInner_cons_step h2 h hq]
              have h1 := ihO r (o2 :: ops') rights q2
              have h3 := ihI (mtOuter k r (o2 :: ops') rights q2).1
                (mtOuter k r (o2 :: ops') rights q2).2.1
                (mtOuter k r (o2 :: ops') rights q2).2.2 op
              exact ⟨le_trans h3.1 h1.1, le_trans h3.2 h1.2⟩
            · rw [mtInner_cons_stop h2 h (Nat.not_lt.mp hq)]; exact ⟨le_rfl, le_rfl⟩

/-- If the outer loop's guard holds on entry, it consumes at least one
operator. -/
theorem mtOuter_progress {o : String} {q2 : Nat} (h : precedence o = some q2) (k : Nat)
    (r : Expr) (os : List String) (rights : List Expr) :
    (mtOuter (k + 1) r (o :: os) rights q2).2.1.length ≤ os.length := by
  rw [mtOuter_cons_step h le_rfl]
  exact le_trans ((mtCons k).1 _ _ _ _).1 ((mtCons k).2 _ _ _ _).1

/-- Fuel irrelevance: with fuel at least `2 * ops.length + 1` (outer loop)
resp. `2 * ops.length + 2` (inner loop), the loops have already reached their
fixed point, so `makeTree` terminates on every input. -/
theorem mtIrrel : ∀ n : Nat,
    (∀ l ops rights m k₁ k₂, ops.length ≤ n → 2 * n + 1 ≤ k₁ → 2 * n + 1 ≤ k₂ →
      mtOuter k₁ l ops rights m = mtOuter k₂ l ops rights m) ∧
    (∀ r ops rights op k₁ k₂, ops.length ≤ n → 2 * n + 2 ≤ k₁ → 2 * n + 2 ≤ k₂ →
      mtInner k₁ r ops rights op = mtInner k₂ r ops rights op) := by
  intro n
  induction n using Nat.strong_induction_on with
  | _ n ih =>
    have hO : ∀ l ops rights m k₁ k₂, ops.length ≤ n → 2 * n + 1 ≤ k₁ → 2 * n + 1 ≤ k₂ →
        mtOuter k₁ l ops rights m = mtOuter k₂ l ops rights m := by
      intro l ops rights m k₁ k₂ hn h1 h2
      cases ops with
      | nil => rw [mtOuter_nil, mtOuter_nil]
      | cons o ops' =>
        have hn' : ops'.length + 1 ≤ n := by simpa using hn
        cases ho : precedence o with
        | none => rw [mtOuter_cons_none ho, mtOuter_cons_none ho]
        | some p =>
          by_cases hp : m ≤ p
          · obtain ⟨a, rfl⟩ : ∃ a, k₁ = a + 1 := ⟨k₁ - 1, by omega⟩
            obtain ⟨b, rfl⟩ : ∃ b, k₂ = b + 1 := ⟨k₂ - 1, by omega⟩
            rw [mtOuter_cons_step ho hp, mtOuter_cons_step ho hp]
            have hI1 := (ih (n - 1) (by omega)).2 (rights.headD undefinedExpr) ops'
              rights.tail o a b (by omega) (by omega) (by omega)
            rw [hI1]
            have hlen : (mtInner b (rights.headD undefinedExpr) ops' rights.tail o).2.1.length
                ≤ n - 1 := le_trans ((mtCons b).2 _ _ _ _).1 (by omega)
            exact (ih (n - 1) (by omega)).1 _ _ _ m a b hlen (by omega) (by omega)
          · rw [mtOuter_cons_stop ho (Nat.not_le.mp hp),
              mtOuter_cons_stop ho (Nat.not_le.mp hp)]
    refine ⟨hO, ?_⟩
    intro r ops rights op k₁ k₂ hn h1 h2
    cases ops with
    | nil => rw [mtInner_nil, mtInner_nil]
    | cons o2 ops' =>
      have hn' : ops'.length + 1 ≤ n := by simpa using hn
      cases ho2 : precedence o2 with
      | none => rw [mtInner_cons_none ho2, mtInner_cons_none ho2]
      | some q2 =>
        cases hop : precedence op with
        | none => rw [mtInner_cons_noneop ho2 hop, mtInner_cons_noneop ho2 hop]
        | some q =>
          by_cases hq : q < q2
          · obtain ⟨a, rfl⟩ : ∃ a, k₁ = a + 1 := ⟨k₁ - 1, by omega⟩
            obtain ⟨b, rfl⟩ : ∃ b, k₂ = b + 1 := ⟨k₂ - 1, by omega⟩
            rw [mtInner_cons_step ho2 hop hq, mtInner_cons_step ho2 hop hq]
            have hOeq := hO r (o2 :: ops') rights q2 a b hn (by omega) (by omega)
            rw [hOeq]
            obtain ⟨c, rfl⟩ : ∃ c, b = c + 1 := ⟨b - 1, by omega⟩
            have hlen : (mtOuter (c + 1) r (o2 :: ops') rights q2).2.1.length ≤ n - 1 :=
              le_trans (mtOuter_progress ho2 c r ops' rights) (by omega)
            exact (ih (n - 1) (by omega)).2 _ _ _ op (a) (c + 1) hlen (by omega) (by omega)
          · rw [mtInner_cons_stop ho2 hop (Nat.not_lt.mp hq),
              mtInner_cons_stop ho2 hop (Nat.not_lt.mp hq)]

/-!
## Reference folds

`termFold` and `expTail` describe, over a single list of operator/operand
pairs, the nested left folds that grammar 2 performs level by level:
`termFold` folds a maximal run of precedence-1 operators (a `Term`),
`expTail` folds the remaining precedence-0 operators between such runs (an
`Exp`).  `mtOuter` is proved below to compute exactly `expFold`.
-/

/-- Left fold of the maximal leading run of precedence-1 operators. -/
def termFold : Expr → List (String × Expr) → Expr × List (String × Expr)
  | e, [] => (e, [])
  | e, (o, x) :: ps =>
    if precedence o = some 1 then termFold (Expr.BinaryExpression e o x) ps
    else (e, (o, x) :: ps)

theorem termFold_nil (e : Expr) : termFold e [] = (e, []) := rfl

theorem termFold_cons_mul {o : String} (h : precedence o = some 1) (e x : Expr)
    (ps : List (String × Expr)) :
    termFold e ((o, x) :: ps) = termFold (Expr.BinaryExpression e o x) ps := by
  simp [termFold, h]

theorem termFold_cons_stop {o : String} (h : ¬ precedence o = some 1) (e x : Expr)
    (ps : List (String × Expr)) :
    termFold e ((o, x) :: ps) = (e, (o, x) :: ps) := by
  simp [termFold, h]

theorem termFold_length (ps : List (String × Expr)) :
    ∀ e : Expr, (termFold e ps).2.length ≤ ps.length := by
  induction ps with
  | nil => intro e; simp [termFold]
  | cons hd ps ih =>
    intro e
    obtain ⟨o, x⟩ := hd
    by_cases h : precedence o = some 1
    · rw [termFold_cons_mul h]
      exact le_trans (ih _) (by simp)
    · rw [termFold_cons_stop h]

/-- Folding a list whose every pair has a precedence-1 operator, followed by
a stop position, folds exactly the run. -/
theorem termFold_muls (mps : List (String × Expr)) :
    ∀ (e : Expr) (rest : List (String × Expr)),
      (∀ p ∈ mps, precedence p.1 = some 1) →
      (∀ o x ps', rest = (o, x) :: ps' → ¬ precedence o = some 1) →
      termFold e (mps ++ rest) =
        (mps.foldl (fun a p => Expr.BinaryExpression a p.1 p.2) e, rest) := by
  induction mps with
  | nil =>
    intro e rest _ hrest
    cases rest with
    | nil => rfl
    | cons hd tl =>
      obtain ⟨o, x⟩ := hd
      simpa using termFold_cons_stop (hrest o x tl rfl) e x tl
  | cons hd mps ih =>
    intro e rest hm hrest
    obtain ⟨o, x⟩ := hd
    rw [List.cons_append, termFold_cons_mul (hm (o, x) (by simp))]
    simpa using ih (Expr.BinaryExpression e o x) rest
      (fun p hp => hm p (by simp [hp])) hrest

/-- Left fold of the precedence-0 operators, folding each intervening
precedence-1 run via `termFold`. -/
def expTail : Expr → List (String × Expr) → Expr
  | t, [] => t
  | t, (o, x) :: ps =>
    if precedence o = some 0 then
      expTail (Expr.BinaryExpression t o (termFold x ps).1) (termFold x ps).2
    else t
termination_by _ ps => ps.length
decreasing_by
  simp only [List.length_cons]
  exact Nat.lt_succ_of_le (termFold_length ps x)

theorem expTail_nil (t : Expr) : expTail t [] = t := by simp [expTail]

theorem expTail_cons_add {o : String} (h : precedence o = some 0) (t x : Expr)
    (ps : List (String × Expr)) :
    expTail t ((o, x) :: ps) =
      expTail (Expr.BinaryExpression t o (termFold x ps).1) (termFold x ps).2 := by
  rw [expTail]
  simp [h]

theorem expTail_cons_stop {o : String} (h : ¬ precedence o = some 0) (t x : Expr)
    (ps : List (String × Expr)) :
    expTail t ((o, x) :: ps) = t := by
  rw [expTail]
  simp [h]

/-- The whole two-level fold: a leading `Term`, then the `Exp`-level fold. -/
def expFold (e : Expr) (ps : List (String × Expr)) : Expr :=
  expTail (termFold e ps).1 (termFold e ps).2

theorem expFold_nil (e : Expr) : expFold e [] = e := by
  simp [expFold, termFold_nil, expTail_nil]

theorem expFold_cons_mul {o : String} (h : precedence o = some 1) (e x : Expr)
    (ps : List (String × Expr)) :
    expFold e ((o, x) :: ps) = expFold (Expr.BinaryExpression e o x) ps := by
  simp [expFold, termFold_cons_mul h]

theorem expFold_cons_add {o : String} (h : precedence o = some 0) (e x : Expr)
    (ps : List (String × Expr)) :
    expFold e ((o, x) :: ps) =
      expTail (Expr.BinaryExpression e o (termFold x ps).1) (termFold x ps).2 := by
  rw [expFold, termFold_cons_stop (by simp [h]), expTail_cons_add h]

/-- When the list does not start with a precedence-1 pair, the leading
`termFold` is trivial and `expFold` is `expTail`. -/
theorem expFold_eq_expTail (e : Expr) (ps : List (String × Expr))
    (h : ∀ o x ps', ps = (o, x) :: ps' → ¬ precedence o = some 1) :
    expFold e ps = expTail e ps := by
  cases ps with
  | nil => rw [expFold_nil, expTail_nil]
  | cons hd tl =>
    obtain ⟨o, x⟩ := hd
    rw [expFold, termFold_cons_stop (h o x tl rfl)]

/-!
## `mtOuter` computes `expFold`
-/

/-- The inner loop does nothing when the next operator does not bind
strictly tighter than `op`. -/
theorem mtInner_noop (k : Nat) (r : Expr) (ops : List String) (rights : List Expr)
    (op : String)
    (h : ∀ o2 os, ops = o2 :: os →
      ∀ q2 q, precedence o2 = some q2 → precedence op = some q → q2 ≤ q) :
    mtInner k r ops rights op = (r, ops, rights) := by
  cases ops with
  | nil => exact mtInner_nil ..
  | cons o2 os =>
    cases ho2 : precedence o2 with
    | none => exact mtInner_cons_none ho2 ..
    | some q2 =>
      cases hop : precedence op with
      | none => exact mtInner_cons_noneop ho2 hop ..
      | some q => exact mtInner_cons_stop ho2 hop (h o2 os rfl q2 q ho2 hop) ..

/-- Outer loop at floor 1 over a run of precedence-1 operators followed by a
non-climbing position: a plain left fold of the run. -/
theorem mtOuter_muls (mops : List String) :
    ∀ (e : Expr) (rops : List String) (rights : List Expr) (k : Nat),
      (∀ o ∈ mops, precedence o = some 1) →
      (∀ o os, rops = o :: os → precedence o = none ∨ precedence o = some 0) →
      mops.length ≤ rights.length →
      mops.length + 1 ≤ k →
      mtOuter k e (mops ++ rops) rights 1 =
        ((mops.zip (rights.take mops.length)).foldl
            (fun a p => Expr.BinaryExpression a p.1 p.2) e,
          rops, rights.drop mops.length) := by
  induction mops with
  | nil =>
    intro e rops rights k _ hrops _ _
    simp only [List.nil_append, List.zip_nil_left, List.foldl_nil, List.take_zero,
      List.drop_zero]
    cases rops with
    | nil => exact mtOuter_nil ..
    | cons o os =>
      rcases hrops o os rfl with h0 | h0
      · exact mtOuter_cons_none h0 ..
      · exact mtOuter_cons_stop h0 (by omega) ..
  | cons o mops ih =>
    intro e rops rights k hm hrops hlen hk
    have ho : precedence o = some 1 := hm o (by simp)
    have hk' : mops.length + 2 ≤ k := by simpa using hk
    have hlen' : mops.length + 1 ≤ rights.length := by simpa using hlen
    obtain ⟨a, rfl⟩ : ∃ a, k = a + 1 := ⟨k - 1, by omega⟩
    cases rights with
    | nil => simp at hlen
    | cons r rights' =>
      rw [List.cons_append, mtOuter_cons_step ho (by omega)]
      have hnoop : mtInner a (List.headD (r :: rights') undefinedExpr) (mops ++ rops)
          (r :: rights').tail o = (r, mops ++ rops, rights') := by
        simp only [List.headD_cons, List.tail_cons]
        refine mtInner_noop a r (mops ++ rops) rights' o ?_
        intro o2 os hcons q2 q ho2 hop
        rw [ho] at hop
        cases hop
        cases mops with
        | nil =>
          simp only [List.nil_append] at hcons
          rcases hrops o2 os hcons with h0 | h0
          · rw [ho2] at h0; cases h0
          · rw [ho2] at h0; injection h0 with h0; omega
        | cons m ms =>
          simp only [List.cons_append, List.cons.injEq] at hcons
          have hm1 := hm m (by simp)
          rw [hcons.1, ho2] at hm1
          injection hm1 with hm1
          omega
      rw [hnoop]
      simp only
      rw [ih (Expr.BinaryExpression e o r) rops rights' a
        (fun x hx => hm x (by simp [hx])) hrops (by simpa using hlen) (by omega)]
      simp

/-- Any operator list over the table splits into a leading precedence-1 run
and a remainder that is empty or starts with precedence 0. -/
theorem exists_mul_split : ∀ ops : List String,
    (∀ o ∈ ops, precedence o = some 0 ∨ precedence o = some 1) →
    ∃ mops rops, ops = mops ++ rops ∧ (∀ o ∈ mops, precedence o = some 1) ∧
      (rops = [] ∨ ∃ o2 os, rops = o2 :: os ∧ precedence o2 = some 0) := by
  intro ops
  induction ops with
  | nil => exact fun _ => ⟨[], [], rfl, by simp, Or.inl rfl⟩
  | cons o ops ih =>
    intro h
    rcases h o (by simp) with h0 | h1
    · exact ⟨[], o :: ops, rfl, by simp, Or.inr ⟨o, ops, rfl, h0⟩⟩
    · obtain ⟨mops, rops, hsplit, hm, hr⟩ := ih (fun x hx => h x (by simp [hx]))
      exact ⟨o :: mops, rops, by simp [hsplit], by simpa using ⟨h1, hm⟩, hr⟩

/-- The outer loop at floor 0, over operators drawn from the table, consumes
the whole operator list and computes exactly the two-level fold `expFold`
that grammar 2 performs structurally. -/
theorem mtOuter_climb : ∀ n : Nat, ∀ ops : List String, ops.length ≤ n →
    ∀ (e : Expr) (rights : List Expr) (k : Nat),
      (∀ o ∈ ops, precedence o = some 0 ∨ precedence o = some 1) →
      ops.length ≤ rights.length →
      2 * ops.length + 1 ≤ k →
      mtOuter k e ops rights 0 =
        (expFold e (ops.zip rights), [], rights.drop ops.length) := by
  intro n
  induction n using Nat.strong_induction_on with
  | _ n ih =>
    intro ops hn e rights k hdom hlen hk
    cases ops with
    | nil =>
      rw [mtOuter_nil]
      simp [expFold_nil]
    | cons o ops' =>
      have hn' : ops'.length + 1 ≤ n := by simpa using hn
      have hk' : 2 * ops'.length + 3 ≤ k := by simp only [List.length_cons] at hk; omega
      have hlen' : ops'.length + 1 ≤ rights.length := by simpa using hlen
      obtain ⟨a, rfl⟩ : ∃ a, k = a + 1 := ⟨k - 1, by omega⟩
      cases rights with
      | nil => simp at hlen'
      | cons r rights' =>
        have hlen'' : ops'.length ≤ rights'.length := by simpa using hlen'
        have hdom' : ∀ x ∈ ops', precedence x = some 0 ∨ precedence x = some 1 :=
          fun x hx => hdom x (by simp [hx])
        rcases hdom o (by simp) with ho | ho
        · -- the head operator is additive (precedence 0)
          rw [mtOuter_cons_step ho (Nat.zero_le 0)]
          simp only [List.headD_cons, List.tail_cons]
          obtain ⟨mops, rops, rfl, hmops, hrops⟩ := exists_mul_split ops' hdom'
          have hmlen : mops.length ≤ rights'.length := by
            refine le_trans ?_ hlen''
            simp
          have hropslen : rops.length ≤ (rights'.drop mops.length).length := by
            simp only [List.length_drop]
            have := hlen''
            simp only [List.length_append] at this
            omega
          have hropshead : ∀ o2 os, rops = o2 :: os →
              precedence o2 = none ∨ precedence o2 = some 0 := by
            intro o2 os hcons
            rcases hrops with h0 | ⟨o3, os3, hcons3, h3⟩
            · rw [h0] at hcons; cases hcons
            · rw [hcons3] at hcons
              injection hcons with h4 h5
              rw [h4] at h3
              exact Or.inr h3
          set Fm := ((mops.zip (rights'.take mops.length)).foldl
            (fun a p => Expr.BinaryExpression a p.1 p.2) r) with hFm
          have hinner : mtInner a r (mops ++ rops) rights' o =
              (Fm, rops, rights'.drop mops.length) := by
            cases mops with
            | nil =>
              simp only [List.nil_append, List.zip_nil_left, List.foldl_nil, hFm,
                List.length_nil, List.drop_zero]
              refine mtInner_noop a r rops rights' o ?_
              intro o2 os hcons q2 q ho2 hop
              rw [ho] at hop; injection hop with hop
              rcases hropshead o2 os hcons with h0 | h0
              · rw [ho2] at h0; cases h0
              · rw [ho2] at h0; injection h0 with h0; omega
            | cons m ms =>
              have hm1 : precedence m = some 1 := hmops m (by simp)
              obtain ⟨c, rfl⟩ : ∃ c, a = c + 1 := ⟨a - 1, by omega⟩
              rw [List.cons_append, mtInner_cons_step hm1 ho (by omega),
                ← List.cons_append]
              have hmuls := mtOuter_muls (m :: ms) r rops rights' c
                hmops hropshead (by simpa using hmlen)
                (by simp only [List.length_cons]; simp only [List.length_cons,
                  List.length_append] at hk'; omega)
              rw [hmuls]
              simp only
              rw [← hFm]
              refine mtInner_noop c Fm rops _ o ?_
              intro o2 os hcons q2 q ho2 hop
              rw [ho] at hop; injection hop with hop
              rcases hropshead o2 os hcons with h0 | h0
              · rw [ho2] at h0; cases h0
              · rw [ho2] at h0; injection h0 with h0; omega
          rw [hinner]
          simp only
          have hropsn : rops.length ≤ n - 1 := by
            simp only [List.length_append] at hn'
            omega
          rw [ih (n - 1) (by omega) rops hropsn (Expr.BinaryExpression e o Fm)
            (rights'.drop mops.length) a
            (fun x hx => hdom' x (by simp [hx])) hropslen
            (by simp only [List.length_append] at hk'; omega)]
          -- align the reference fold on the right-hand side
          have htake : (rights'.take mops.length).length = mops.length :=
            List.length_take_of_le hmlen
          have hzip : (mops ++ rops).zip rights' =
              mops.zip (rights'.take mops.length) ++
                rops.zip (rights'.drop mops.length) := by
            conv_lhs => rw [← List.take_append_drop mops.length rights']
            exact List.zip_append htake.symm
          have hterm : termFold r ((mops ++ rops).zip rights') =
              (Fm, rops.zip (rights'.drop mops.length)) := by
            rw [hzip, hFm]
            refine termFold_muls _ r _ ?_ ?_
            · intro p hp
              have := (List.of_mem_zip hp).1
              exact hmops _ this
            · intro o2 x ps' hcons q
              cases rops with
              | nil => simp at hcons
              | cons o3 os3 =>
                cases hdr : rights'.drop mops.length with
                | nil => rw [hdr] at hcons; simp at hcons
                | cons rr rrs =>
                  rw [hdr, List.zip_cons_cons] at hcons
                  injection hcons with h4 h5
                  injection h4 with h6 h7
                  rcases hropshead o3 os3 rfl with h0 | h0 <;>
                    rw [← h6, h0] at q
                  · cases q
                  · injection q with q; omega
          rw [List.zip_cons_cons, expFold_cons_add ho, hterm]
          rw [expFold_eq_expTail _ _ ?stophyp]
          case stophyp =>
            intro o2 x ps' hcons q
            cases rops with
            | nil => simp at hcons
            | cons o3 os3 =>
              cases hdr : rights'.drop mops.length with
              | nil => rw [hdr] at hcons; simp at hcons
              | cons rr rrs =>
                rw [hdr, List.zip_cons_cons] at hcons
                injection hcons with h4 h5
                injection h4 with h6 h7
                rcases hropshead o3 os3 rfl with h0 | h0 <;> rw [← h6, h0] at q
                · cases q
                · injection q with q; omega
          simp [List.length_append]
        · -- the head operator is multiplicative (precedence 1)
          rw [mtOuter_cons_step ho (Nat.zero_le 1)]
          simp only [List.headD_cons, List.tail_cons]
          have hnoop : mtInner a r ops' rights' o = (r, ops', rights') := by
            refine mtInner_noop a r ops' rights' o ?_
            intro o2 os hcons q2 q ho2 hop
            rw [ho] at hop; injection hop with hop
            rcases hdom' o2 (by simp [hcons]) with h0 | h0 <;>
              (rw [ho2] at h0; injection h0 with h0; omega)
          rw [hnoop]
          simp only
          rw [ih (n - 1) (by omega) ops' (by omega) (Expr.BinaryExpression e o r)
            rights' a hdom' hlen'' (by omega)]
          rw [List.zip_cons_cons, expFold_cons_mul ho]
          simp

/-- `makeTree` computes the two-level fold when its operators come from the
table and operands are as numerous as operators. -/
theorem makeTree_eq_expFold (e : Expr) (ops : List String) (rights : List Expr)
    (hdom : ∀ o ∈ ops, precedence o = some 0 ∨ precedence o = some 1)
    (hlen : ops.length ≤ rights.length) :
    makeTree e ops rights 0 = expFold e (ops.zip rights) := by
  rw [makeTree, mtOuter_climb ops.length ops le_rfl e rights (2 * ops.length + 1)
    hdom hlen le_rfl]

/-!
## Facts about the operator token matchers
-/

theorem addopTok_some : ∀ {t : Token} {o : String}, addopTok t = some o →
    t = Token.op o ∧ (o = "+" ∨ o = "-") := by
  intro t o h
  cases t with
  | op s =>
    rw [addopTok] at h
    split at h
    next h1 => injection h with h2; subst h2; exact ⟨rfl, h1⟩
    next => cases h
  | num v => simp [addopTok] at h
  | id n => simp [addopTok] at h
  | lparen => simp [addopTok] at h
  | rparen => simp [addopTok] at h

theorem mulopTok_some : ∀ {t : Token} {o : String}, mulopTok t = some o →
    t = Token.op o ∧ (o = "*" ∨ o = "/") := by
  intro t o h
  cases t with
  | op s =>
    rw [mulopTok] at h
    split at h
    next h1 => injection h with h2; subst h2; exact ⟨rfl, h1⟩
    next => cases h
  | num v => simp [mulopTok] at h
  | id n => simp [mulopTok] at h
  | lparen => simp [mulopTok] at h
  | rparen => simp [mulopTok] at h

theorem binopTok_some : ∀ {t : Token} {o : String}, binopTok t = some o →
    t = Token.op o ∧ (o = "+" ∨ o = "-" ∨ o = "*" ∨ o = "/") := by
  intro t o h
  cases t with
  | op s =>
    rw [binopTok] at h
    split at h
    next h1 => injection h with h2; subst h2; exact ⟨rfl, h1⟩
    next => cases h
  | num v => simp [binopTok] at h
  | id n => simp [binopTok] at h
  | lparen => simp [binopTok] at h
  | rparen => simp [binopTok] at h

theorem addopTok_prec {t : Token} {o : String} (h : addopTok t = some o) :
    precedence o = some 0 := by
  rcases (addopTok_some h).2 with h1 | h1 <;> subst h1 <;> rfl

theorem mulopTok_prec {t : Token} {o : String} (h : mulopTok t = some o) :
    precedence o = some 1 := by
  rcases (mulopTok_some h).2 with h1 | h1 <;> subst h1 <;> rfl

theorem binopTok_prec {t : Token} {o : String} (h : binopTok t = some o) :
    precedence o = some 0 ∨ precedence o = some 1 := by
  rcases (binopTok_some h).2 with h1 | h1 | h1 | h1 <;> subst h1
  · exact Or.inl rfl
  · exact Or.inl rfl
  · exact Or.inr rfl
  · exact Or.inr rfl

theorem addopTok_to_binop {t : Token} {o : String} (h : addopTok t = some o) :
    binopTok t = some o := by
  obtain ⟨rfl, h1⟩ := addopTok_some h
  rcases h1 with h1 | h1 <;> subst h1 <;> rfl

theorem mulopTok_to_binop {t : Token} {o : String} (h : mulopTok t = some o) :
    binopTok t = some o := by
  obtain ⟨rfl, h1⟩ := mulopTok_some h
  rcases h1 with h1 | h1 <;> subst h1 <;> rfl

theorem addopTok_mulop_none {t : Token} {o : String} (h : addopTok t = some o) :
    mulopTok t = none := by
  obtain ⟨rfl, h1⟩ := addopTok_some h
  rcases h1 with h1 | h1 <;> subst h1 <;> rfl

theorem binopTok_none_addop {t : Token} (h : binopTok t = none) : addopTok t = none := by
  cases ha : addopTok t with
  | none => rfl
  | some o => rw [addopTok_to_binop ha] at h; cases h

theorem binopTok_none_mulop {t : Token} (h : binopTok t = none) : mulopTok t = none := by
  cases ha : mulopTok t with
  | none => rfl
  | some o => rw [mulopTok_to_binop ha] at h; cases h

theorem binopTok_cases {t : Token} {o : String} (h : binopTok t = some o) :
    mulopTok t = some o ∨ (addopTok t = some o ∧ mulopTok t = none) := by
  obtain ⟨rfl, h1⟩ := binopTok_some h
  rcases h1 with h1 | h1 | h1 | h1 <;> subst h1
  · exact Or.inr ⟨rfl, rfl⟩
  · exact Or.inr ⟨rfl, rfl⟩
  · exact Or.inl rfl
  · exact Or.inl rfl

/-!
## Lemmas about the iteration `opStar`
-/

/-- A parser only ever consumes tokens. -/
def Consumes (item : List Token → Option (Expr × List Token)) : Prop :=
  ∀ ts e ts', item ts = some (e, ts') → ts'.length ≤ ts.length

theorem opStar_zero (item : List Token → Option (Expr × List Token))
    (sep : Token → Option String) (ts : List Token) :
    opStar item sep 0 ts = (([], []), ts) := rfl

theorem opStar_nil (item : List Token → Option (Expr × List Token))
    (sep : Token → Option String) (k : Nat) :
    opStar item sep k [] = (([], []), []) := by
  cases k <;> rfl

theorem opStar_cons_nosep {sep : Token → Option String} {t : Token} (h : sep t = none)
    (item : List Token → Option (Expr × List Token)) (k : Nat) (ts : List Token) :
    opStar item sep (k + 1) (t :: ts) = (([], []), t :: ts) := by
  simp [opStar, h]

theorem opStar_cons_noitem {sep : Token → Option String} {t : Token} {o : String}
    (h : sep t = some o) {item : List Token → Option (Expr × List Token)}
    {ts : List Token} (hi : item ts = none) (k : Nat) :
    opStar item sep (k + 1) (t :: ts) = (([], []), t :: ts) := by
  simp [opStar, h, hi]

theorem opStar_cons_step {sep : Token → Option String} {t : Token} {o : String}
    (h : sep t = some o) {item : List Token → Option (Expr × List Token)}
    {ts ts' : List Token} {x : Expr} (hi : item ts = some (x, ts')) (k : Nat) :
    opStar item sep (k + 1) (t :: ts) =
      ((o :: (opStar item sep k ts').1.1, x :: (opStar item sep k ts').1.2),
        (opStar item sep k ts').2) := by
  simp [opStar, h, hi]

/-- The iteration produces as many operators as operands. -/
theorem opStar_len (item : List Token → Option (Expr × List Token))
    (sep : Token → Option String) : ∀ (k : Nat) (ts : List Token),
    (opStar item sep k ts).1.1.length = (opStar item sep k ts).1.2.length := by
  intro k
  induction k with
  | zero => intro ts; rfl
  | succ k ih =>
    intro ts
    cases ts with
    | nil => rfl
    | cons t ts =>
      cases hsep : sep t with
      | none => rw [opStar_cons_nosep hsep]; rfl
      | some o =>
        cases hi : item ts with
        | none => rw [opStar_cons_noitem hsep hi]; rfl
        | some r =>
          obtain ⟨x, ts'⟩ := r
          rw [opStar_cons_step hsep hi]
          simpa using ih ts'


/-- Every produced operator satisfies whatever the separator matcher
guarantees. -/
theorem opStar_ops_mem {sep : Token → Option String} {P : String → Prop}
    (hsepP : ∀ t o, sep t = some o → P o)
    (item : List Token → Option (Expr × List Token)) : ∀ (k : Nat) (ts : List Token),
    ∀ o ∈ (opStar item sep k ts).1.1, P o := by
  intro k
  induction k with
  | zero => intro ts o ho; simp [opStar_zero] at ho
  | succ k ih =>
    intro ts o ho
    cases ts with
    | nil => rw [opStar_nil] at ho; simp at ho
    | cons t ts =>
      cases hsep : sep t with
      | none => rw [opStar_cons_nosep hsep] at ho; simp at ho
      | some o1 =>
        cases hi : item ts with
        | none => rw [opStar_cons_noitem hsep hi] at ho; simp at ho
        | some r =>
          obtain ⟨x, ts'⟩ := r
          rw [opStar_cons_step hsep hi] at ho
          simp only [List.mem_cons] at ho
          rcases ho with rfl | ho
          · exact hsepP t o hsep
          · exact ih ts' o ho

/-- The iteration only ever consumes tokens. -/
theorem opStar_rem {item : List Token → Option (Expr × List Token)}
    (hitem : Consumes item) (sep : Token → Option String) :
    ∀ (k : Nat) (ts : List Token), (opStar item sep k ts).2.length ≤ ts.length := by
  intro k
  induction k with
  | zero => intro ts; exact le_rfl
  | succ k ih =>
    intro ts
    cases ts with
    | nil => rw [opStar_nil]
    | cons t ts =>
      cases hsep : sep t with
      | none => rw [opStar_cons_nosep hsep]
      | some o =>
        cases hi : item ts with
        | none => rw [opStar_cons_noitem hsep hi]
        | some r =>
          obtain ⟨x, ts'⟩ := r
          rw [opStar_cons_step hsep hi]
          have h1 := hitem ts x ts' hi
          have h2 := ih ts'
          simp only [List.length_cons]
          omega

/-- Any fuel at least the token count computes the same iteration. -/
theorem opStar_congr {item : List Token → Option (Expr × List Token)}
    (hitem : Consumes item) (sep : Token → Option String) :
    ∀ (n : Nat) (ts : List Token) (k₁ k₂ : Nat), ts.length ≤ n →
      ts.length ≤ k₁ → ts.length ≤ k₂ →
      opStar item sep k₁ ts = opStar item sep k₂ ts := by
  intro n
  induction n with
  | zero =>
    intro ts k₁ k₂ hn _ _
    have : ts = [] := List.length_eq_zero.mp (Nat.le_zero.mp hn)
    subst this
    rw [opStar_nil, opStar_nil]
  | succ n ih =>
    intro ts k₁ k₂ hn h1 h2
    cases ts with
    | nil => rw [opStar_nil, opStar_nil]
    | cons t ts =>
      have hn' : ts.length ≤ n := by simpa using hn
      obtain ⟨a, rfl⟩ : ∃ a, k₁ = a + 1 := ⟨k₁ - 1, by simp at h1; omega⟩
      obtain ⟨b, rfl⟩ : ∃ b, k₂ = b + 1 := ⟨k₂ - 1, by simp at h2; omega⟩
      cases hsep : sep t with
      | none => rw [opStar_cons_nosep hsep, opStar_cons_nosep hsep]
      | some o =>
        cases hi : item ts with
        | none => rw [opStar_cons_noitem hsep hi, opStar_cons_noitem hsep hi]
        | some r =>
          obtain ⟨x, ts'⟩ := r
          rw [opStar_cons_step hsep hi, opStar_cons_step hsep hi]
          have hts' : ts'.length ≤ ts.length := hitem ts x ts' hi
          rw [ih ts' a b (le_trans hts' hn') (by simp at h1; omega) (by simp at h2; omega)]

/-- After the iteration stops, no further iteration is possible: re-running
the iteration at the remainder matches nothing. -/
theorem opStar_stuck {item : List Token → Option (Expr × List Token)}
    (hitem : Consumes item) (sep : Token → Option String) :
    ∀ (n : Nat) (ts : List Token) (k : Nat), ts.length ≤ n → ts.length ≤ k →
      opStar item sep ((opStar item sep k ts).2).length (opStar item sep k ts).2 =
        (([], []), (opStar item sep k ts).2) := by
  intro n
  induction n with
  | zero =>
    intro ts k hn _
    have : ts = [] := List.length_eq_zero.mp (Nat.le_zero.mp hn)
    subst this
    rw [opStar_nil, opStar_nil]
  | succ n ih =>
    intro ts k hn hk
    cases ts with
    | nil => rw [opStar_nil, opStar_nil]
    | cons t ts =>
      have hn' : ts.length ≤ n := by simpa using hn
      obtain ⟨a, rfl⟩ : ∃ a, k = a + 1 := ⟨k - 1, by simp at hk; omega⟩
      cases hsep : sep t with
      | none =>
        rw [opStar_cons_nosep hsep]
        simp only [List.length_cons]
        rw [opStar_cons_nosep hsep]
      | some o =>
        cases hi : item ts with
        | none =>
          rw [opStar_cons_noitem hsep hi]
          simp only [List.length_cons]
          rw [opStar_cons_noitem hsep hi]
        | some r =>
          obtain ⟨x, ts'⟩ := r
          rw [opStar_cons_step hsep hi]
          have hts' : ts'.length ≤ ts.length := hitem ts x ts' hi
          exact ih ts' a (le_trans hts' hn') (by simp at hk; omega)

/-!
## Consumption bounds for the parsers
-/

theorem pAtom_consumes {pExp : List Token → Option (Expr × List Token)}
    (h : Consumes pExp) : Consumes (pAtom pExp) := by
  intro ts e ts' hts
  cases ts with
  | nil => simp [pAtom] at hts
  | cons t ts0 =>
    cases t with
    | num v =>
      simp only [pAtom, Option.some.injEq, Prod.mk.injEq] at hts
      rw [← hts.2]
      simp
    | id n =>
      simp only [pAtom, Option.some.injEq, Prod.mk.injEq] at hts
      rw [← hts.2]
      simp
    | op s => simp [pAtom] at hts
    | rparen => simp [pAtom] at hts
    | lparen =>
      rw [pAtom] at hts
      split at hts
      next e1 ts1 hpe =>
        injection hts with hts
        injection hts with he hts'
        subst hts'
        have := h ts0 e1 (Token.rparen :: ts1) hpe
        simp only [List.length_cons] at this ⊢
        omega
      next => cases hts

theorem pTerm2_consumes {pExp : List Token → Option (Expr × List Token)}
    (h : Consumes pExp) : Consumes (pTerm2 pExp) := by
  intro ts e ts' hts
  rw [pTerm2] at hts
  cases hat : pAtom pExp ts with
  | none => rw [hat] at hts; cases hts
  | some r =>
    obtain ⟨f, ts1⟩ := r
    rw [hat] at hts
    simp only [Option.some.injEq, Prod.mk.injEq] at hts
    have h1 := pAtom_consumes h ts f ts1 hat
    have h2 := opStar_rem (pAtom_consumes h) mulopTok ts1.length ts1
    rw [← hts.2]
    omega

theorem pExpCore2_consumes {pExp : List Token → Option (Expr × List Token)}
    (h : Consumes pExp) : Consumes (pExpCore2 pExp) := by
  intro ts e ts' hts
  rw [pExpCore2] at hts
  cases ht : pTerm2 pExp ts with
  | none => rw [ht] at hts; cases hts
  | some r =>
    obtain ⟨t, ts1⟩ := r
    rw [ht] at hts
    simp only [Option.some.injEq, Prod.mk.injEq] at hts
    have h1 := pTerm2_consumes h ts t ts1 ht
    have h2 := opStar_rem (pTerm2_consumes h) addopTok ts1.length ts1
    rw [← hts.2]
    omega

theorem pExp2_consumes : ∀ d : Nat, Consumes (pExp2 d) := by
  intro d
  induction d with
  | zero => intro ts e ts' hts; cases hts
  | succ d ih => exact pExpCore2_consumes ih

/-!
## Variant 1 equals variant 2

Ohm's left-recursion seed growing (`grow1`) builds the same tree that the
iterative grammar builds by collecting the pairs and folding them with
`makeBinaryExpression`.
-/

theorem grow1_zero (item : List Token → Option (Expr × List Token))
    (sep : Token → Option String) (acc : Expr) (ts : List Token) :
    grow1 item sep 0 acc ts = (acc, ts) := rfl

theorem grow1_nil (item : List Token → Option (Expr × List Token))
    (sep : Token → Option String) (k : Nat) (acc : Expr) :
    grow1 item sep k acc [] = (acc, []) := by
  cases k <;> rfl

theorem grow1_cons_nosep {sep : Token → Option String} {t : Token} (h : sep t = none)
    (item : List Token → Option (Expr × List Token)) (k : Nat) (acc : Expr)
    (ts : List Token) :
    grow1 item sep (k + 1) acc (t :: ts) = (acc, t :: ts) := by
  simp [grow1, h]

theorem grow1_cons_noitem {sep : Token → Option String} {t : Token} {o : String}
    (h : sep t = some o) {item : List Token → Option (Expr × List Token)}
    {ts : List Token} (hi : item ts = none) (k : Nat) (acc : Expr) :
    grow1 item sep (k + 1) acc (t :: ts) = (acc, t :: ts) := by
  simp [grow1, h, hi]

theorem grow1_cons_step {sep : Token → Option String} {t : Token} {o : String}
    (h : sep t = some o) {item : List Token → Option (Expr × List Token)}
    {ts ts' : List Token} {x : Expr} (hi : item ts = some (x, ts')) (k : Nat) (acc : Expr) :
    grow1 item sep (k + 1) acc (t :: ts) =
      grow1 item sep k (Expr.BinaryExpression acc o x) ts' := by
  simp [grow1, h, hi]

/-- Seed growing is the iteration followed by the left fold. -/
theorem grow1_eq_opStar (item : List Token → Option (Expr × List Token))
    (sep : Token → Option String) : ∀ (k : Nat) (acc : Expr) (ts : List Token),
    grow1 item sep k acc ts =
      (makeBinaryExpression acc (opStar item sep k ts).1.1 (opStar item sep k ts).1.2,
        (opStar item sep k ts).2) := by
  intro k
  induction k with
  | zero => intro acc ts; rfl
  | succ k ih =>
    intro acc ts
    cases ts with
    | nil => rw [grow1_nil, opStar_nil]; rfl
    | cons t ts =>
      cases hsep : sep t with
      | none => rw [grow1_cons_nosep hsep, opStar_cons_nosep hsep]; rfl
      | some o =>
        cases hi : item ts with
        | none => rw [grow1_cons_noitem hsep hi, opStar_cons_noitem hsep hi]; rfl
        | some r =>
          obtain ⟨x, ts'⟩ := r
          rw [grow1_cons_step hsep hi, opStar_cons_step hsep hi, ih]
          rfl

theorem pTerm1_eq_pTerm2 (pExp : List Token → Option (Expr × List Token))
    (ts : List Token) : pTerm1 pExp ts = pTerm2 pExp ts := by
  rw [pTerm1, pTerm2]
  cases hat : pAtom pExp ts with
  | none => rfl
  | some r =>
    obtain ⟨f, ts'⟩ := r
    simp only [Option.some.injEq]
    rw [grow1_eq_opStar]

theorem pExpCore1_eq_pExpCore2 (pExp : List Token → Option (Expr × List Token))
    (ts : List Token) : pExpCore1 pExp ts = pExpCore2 pExp ts := by
  have hT : pTerm1 pExp = pTerm2 pExp := funext (pTerm1_eq_pTerm2 pExp)
  rw [pExpCore1, pExpCore2, hT]
  cases ht : pTerm2 pExp ts with
  | none => rfl
  | some r =>
    obtain ⟨t, ts'⟩ := r
    simp only [Option.some.injEq]
    rw [grow1_eq_opStar]

theorem pExp1_eq_pExp2 : ∀ (d : Nat) (ts : List Token), pExp1 d ts = pExp2 d ts := by
  intro d
  induction d with
  | zero => intro ts; rfl
  | succ d ih =>
    intro ts
    have hfun : pExp1 d = pExp2 d := funext ih
    rw [pExp1, pExp2, hfun, pExpCore1_eq_pExpCore2]

/-!
## Variant 3 equals variant 2

`NonemptyListOf<item, sep>` is definitionally `item (sep item)*` with the
same `makeBinaryExpression` action, so the two grammars coincide once the
parenthesis-level parsers do.
-/

theorem pExpCore3_eq_pExpCore2 (pExp : List Token → Option (Expr × List Token))
    (ts : List Token) : pExpCore3 pExp ts = pExpCore2 pExp ts := rfl

theorem pExp3_eq_pExp2 : ∀ (d : Nat) (ts : List Token), pExp3 d ts = pExp2 d ts := by
  intro d
  induction d with
  | zero => intro ts; rfl
  | succ d ih =>
    intro ts
    have hfun : pExp3 d = pExp2 d := funext ih
    rw [pExp3, pExp2, hfun, pExpCore3_eq_pExpCore2]

/-!
## Variant 4 equals variant 2

The flat iteration of grammar 4 decomposes into the mul-run/add-run nesting
of grammar 2 (`flat_star_decomp`, `add_level_eq`), and `makeTree` computes
the corresponding two-level fold (`mtOuter_climb`), so the two variants
agree on every token list.
-/

theorem mulopTok_addop_none {t : Token} {o : String} (h : mulopTok t = some o) :
    addopTok t = none := by
  obtain ⟨rfl, h1⟩ := mulopTok_some h
  rcases h1 with h1 | h1 <;> subst h1 <;> rfl

theorem makeBinaryExpression_cons (acc : Expr) (o : String) (ops : List String) (x : Expr)
    (rest : List Expr) :
    makeBinaryExpression acc (o :: ops) (x :: rest) =
      makeBinaryExpression (Expr.BinaryExpression acc o x) ops rest := rfl

theorem makeBinaryExpression_nil (acc : Expr) (rest : List Expr) :
    makeBinaryExpression acc [] rest = acc := rfl

/-- Grammar 4's reference core: the same token consumption, with the
two-level fold in place of `makeTree`. -/
def pExpCoreR (pExp : List Token → Option (Expr × List Token)) (ts : List Token) :
    Option (Expr × List Token) :=
  match pAtom pExp ts with
  | some (f, ts') =>
    let r := opStar (pAtom pExp) binopTok ts'.length ts'
    some (expFold f (r.1.1.zip r.1.2), r.2)
  | none => none

theorem pExpCore4_eq_pExpCoreR (pExp : List Token → Option (Expr × List Token))
    (ts : List Token) : pExpCore4 pExp ts = pExpCoreR pExp ts := by
  rw [pExpCore4, pExpCoreR]
  cases hat : pAtom pExp ts with
  | none => rfl
  | some r =>
    obtain ⟨f, ts'⟩ := r
    simp only [Option.some.injEq, Prod.mk.injEq, and_true]
    refine makeTree_eq_expFold f _ _ ?_ ?_
    · exact opStar_ops_mem (fun t o h => binopTok_prec h) (pAtom pExp) ts'.length ts'
    · exact le_of_eq (opStar_len (pAtom pExp) binopTok ts'.length ts')

/-- The flat `binop` iteration is the `mulop` iteration followed by the flat
iteration restarted at its remainder. -/
theorem flat_star_decomp {A : List Token → Option (Expr × List Token)} (hA : Consumes A) :
    ∀ (n : Nat) (ts : List Token), ts.length ≤ n →
      opStar A binopTok ts.length ts =
        (((opStar A mulopTok ts.length ts).1.1 ++
            (opStar A binopTok ((opStar A mulopTok ts.length ts).2).length
              (opStar A mulopTok ts.length ts).2).1.1,
          (opStar A mulopTok ts.length ts).1.2 ++
            (opStar A binopTok ((opStar A mulopTok ts.length ts).2).length
              (opStar A mulopTok ts.length ts).2).1.2),
          (opStar A binopTok ((opStar A mulopTok ts.length ts).2).length
            (opStar A mulopTok ts.length ts).2).2) := by
  intro n
  induction n with
  | zero =>
    intro ts hn
    have hts : ts = [] := List.length_eq_zero.mp (Nat.le_zero.mp hn)
    subst hts
    simp [opStar_nil]
  | succ n ih =>
    intro ts hn
    cases ts with
    | nil => simp [opStar_nil]
    | cons t ts0 =>
      have hn' : ts0.length ≤ n := by simpa using hn
      simp only [List.length_cons]
      cases hb : binopTok t with
      | none =>
        have hm : mulopTok t = none := binopTok_none_mulop hb
        rw [opStar_cons_nosep hb, opStar_cons_nosep hm]
        simp only [List.length_cons]
        rw [opStar_cons_nosep hb]
        simp
      | some o =>
        rcases binopTok_cases hb with hmul | ⟨hadd, hmulnone⟩
        · cases hi : A ts0 with
          | none =>
            rw [opStar_cons_noitem hb hi, opStar_cons_noitem hmul hi]
            simp only [List.length_cons]
            rw [opStar_cons_noitem hb hi]
            simp
          | some r =>
            obtain ⟨x, ts1⟩ := r
            rw [opStar_cons_step hb hi, opStar_cons_step hmul hi]
            have hts1 : ts1.length ≤ ts0.length := hA ts0 x ts1 hi
            rw [opStar_congr hA binopTok ts0.length ts1 ts0.length ts1.length hts1 hts1
                le_rfl,
              opStar_congr hA mulopTok ts0.length ts1 ts0.length ts1.length hts1 hts1
                le_rfl,
              ih ts1 (le_trans hts1 hn')]
            simp
        · rw [opStar_cons_nosep hmulnone]
          simp

/-- At a position where the `mulop` iteration is exhausted, grammar 2's
`addop`-of-`Term` iteration and grammar 4's flat iteration consume the same
tokens, the flat operator list starts (if at all) with a precedence-0
operator, and grammar 2's fold of the collected `Term`s equals the reference
`expTail` fold of the flat pair list. -/
theorem add_level_eq {pExp : List Token → Option (Expr × List Token)}
    (hC : Consumes pExp) :
    ∀ (n : Nat) (ts : List Token), ts.length ≤ n →
      opStar (pAtom pExp) mulopTok ts.length ts = (([], []), ts) →
      (opStar (pAtom pExp) binopTok ts.length ts).2 =
          (opStar (pTerm2 pExp) addopTok ts.length ts).2 ∧
      ((opStar (pAtom pExp) binopTok ts.length ts).1.1 = [] ∨
        ∃ o os, (opStar (pAtom pExp) binopTok ts.length ts).1.1 = o :: os ∧
          precedence o = some 0) ∧
      (∀ acc : Expr,
        makeBinaryExpression acc (opStar (pTerm2 pExp) addopTok ts.length ts).1.1
            (opStar (pTerm2 pExp) addopTok ts.length ts).1.2 =
          expTail acc ((opStar (pAtom pExp) binopTok ts.length ts).1.1.zip
            (opStar (pAtom pExp) binopTok ts.length ts).1.2)) := by
  intro n
  induction n with
  | zero =>
    intro ts hn _
    have hts : ts = [] := List.length_eq_zero.mp (Nat.le_zero.mp hn)
    subst hts
    refine ⟨by simp [opStar_nil], Or.inl (by simp [opStar_nil]), ?_⟩
    intro acc
    simp [opStar_nil, makeBinaryExpression_nil, expTail_nil]
  | succ n ih =>
    intro ts hn hstuck
    cases ts with
    | nil =>
      refine ⟨by simp [opStar_nil], Or.inl (by simp [opStar_nil]), ?_⟩
      intro acc
      simp [opStar_nil, makeBinaryExpression_nil, expTail_nil]
    | cons t ts0 =>
      have hn' : ts0.length ≤ n := by simpa using hn
      simp only [List.length_cons] at hstuck ⊢
      cases hb : binopTok t with
      | none =>
        have hm : addopTok t = none := binopTok_none_addop hb
        rw [opStar_cons_nosep hb, opStar_cons_nosep hm]
        refine ⟨rfl, Or.inl rfl, ?_⟩
        intro acc
        simp [makeBinaryExpression_nil, expTail_nil]
      | some o =>
        rcases binopTok_cases hb with hmul | ⟨hadd, hmulnone⟩
        · -- the head is a mulop: being stuck forces the item to fail here
          have hAnone : pAtom pExp ts0 = none := by
            cases hi : pAtom pExp ts0 with
            | none => rfl
            | some r =>
              obtain ⟨x, ts1⟩ := r
              rw [opStar_cons_step hmul hi] at hstuck
              injection hstuck with h1 h2
              injection h1 with h3 h4
              cases h3
          have hadd2 : addopTok t = none := mulopTok_addop_none hmul
          rw [opStar_cons_noitem hb hAnone, opStar_cons_nosep hadd2]
          refine ⟨rfl, Or.inl rfl, ?_⟩
          intro acc
          simp [makeBinaryExpression_nil, expTail_nil]
        · -- the head is an addop
          have hprec0 : precedence o = some 0 := addopTok_prec hadd
          cases hi : pAtom pExp ts0 with
          | none =>
            have hTnone : pTerm2 pExp ts0 = none := by simp only [pTerm2, hi]
            rw [opStar_cons_noitem hb hi, opStar_cons_noitem hadd hTnone]
            refine ⟨rfl, Or.inl rfl, ?_⟩
            intro acc
            simp [makeBinaryExpression_nil, expTail_nil]
          | some r =>
            obtain ⟨x, ts1⟩ := r
            have hts1 : ts1.length ≤ ts0.length := pAtom_consumes hC ts0 x ts1 hi
            have hT : pTerm2 pExp ts0 =
                some (makeBinaryExpression x
                    (opStar (pAtom pExp) mulopTok ts1.length ts1).1.1
                    (opStar (pAtom pExp) mulopTok ts1.length ts1).1.2,
                  (opStar (pAtom pExp) mulopTok ts1.length ts1).2) := by
              simp only [pTerm2, hi]
            rw [opStar_cons_step hb hi, opStar_cons_step hadd hT]
            have hMrem : ((opStar (pAtom pExp) mulopTok ts1.length ts1).2).length ≤
                ts1.length := opStar_rem (pAtom_consumes hC) mulopTok ts1.length ts1
            -- renormalize the two iteration fuels
            have hflatc : opStar (pAtom pExp) binopTok ts0.length ts1 =
                opStar (pAtom pExp) binopTok ts1.length ts1 :=
              opStar_congr (pAtom_consumes hC) binopTok ts0.length ts1 ts0.length
                ts1.length hts1 hts1 le_rfl
            have haddc : opStar (pTerm2 pExp) addopTok ts0.length
                  (opStar (pAtom pExp) mulopTok ts1.length ts1).2 =
                opStar (pTerm2 pExp) addopTok
                  ((opStar (pAtom pExp) mulopTok ts1.length ts1).2).length
                  (opStar (pAtom pExp) mulopTok ts1.length ts1).2 :=
              opStar_congr (pTerm2_consumes hC) addopTok ts0.length _ ts0.length _
                (le_trans hMrem hts1) (le_trans hMrem hts1) le_rfl
            have hdecomp := flat_star_decomp (pAtom_consumes hC) n ts1
              (le_trans hts1 hn')
            have hstuck2 := opStar_stuck (pAtom_consumes hC) mulopTok n ts1 ts1.length
              (le_trans hts1 hn') le_rfl
            obtain ⟨ihrem, ihhead, ihfold⟩ := ih
              (opStar (pAtom pExp) mulopTok ts1.length ts1).2
              (le_trans (le_trans hMrem hts1) hn') hstuck2
            rw [hflatc, haddc, hdecomp]
            have hmlen : (opStar (pAtom pExp) mulopTok ts1.length ts1).1.1.length =
                (opStar (pAtom pExp) mulopTok ts1.length ts1).1.2.length :=
              opStar_len (pAtom pExp) mulopTok ts1.length ts1
            refine ⟨ihrem, Or.inr ⟨o, _, rfl, hprec0⟩, ?_⟩
            intro acc
            rw [makeBinaryExpression_cons, ihfold, List.zip_cons_cons,
              expTail_cons_add hprec0, List.zip_append hmlen]
            have hterm := termFold_muls
              ((opStar (pAtom pExp) mulopTok ts1.length ts1).1.1.zip
                (opStar (pAtom pExp) mulopTok ts1.length ts1).1.2) x
              (((opStar (pAtom pExp) binopTok
                  ((opStar (pAtom pExp) mulopTok ts1.length ts1).2).length
                  (opStar (pAtom pExp) mulopTok ts1.length ts1).2).1.1).zip
                ((opStar (pAtom pExp) binopTok
                  ((opStar (pAtom pExp) mulopTok ts1.length ts1).2).length
                  (opStar (pAtom pExp) mulopTok ts1.length ts1).2).1.2))
              (fun p hp => opStar_ops_mem (fun t o h => mulopTok_prec h) (pAtom pExp)
                ts1.length ts1 p.1 (List.of_mem_zip hp).1)
              (by
                intro o2 x2 ps' hcons hne
                rcases ihhead with hnil | ⟨o3, os3, heq3, hprec3⟩
                · rw [hnil] at hcons; simp at hcons
                · rw [heq3] at hcons
                  cases hdr : (opStar (pAtom pExp) binopTok
                      ((opStar (pAtom pExp) mulopTok ts1.length ts1).2).length
                      (opStar (pAtom pExp) mulopTok ts1.length ts1).2).1.2 with
                  | nil => rw [hdr] at hcons; simp at hcons
                  | cons rr rrs =>
                    rw [hdr, List.zip_cons_cons] at hcons
                    injection hcons with h4 h5
                    injection h4 with h6 h7
                    rw [← h6, hprec3] at hne
                    injection hne with hne
                    omega)
            rw [hterm]
            rw [makeBinaryExpression_eq_foldl _ x _ (le_of_eq hmlen)]

theorem pExpCore2_eq_pExpCoreR {pExp : List Token → Option (Expr × List Token)}
    (hC : Consumes pExp) (ts : List Token) : pExpCore2 pExp ts = pExpCoreR pExp ts := by
  rw [pExpCore2, pExpCoreR]
  cases hat : pAtom pExp ts with
  | none =>
    have hT : pTerm2 pExp ts = none := by simp only [pTerm2, hat]
    rw [hT]
  | some r =>
    obtain ⟨f, tsb⟩ := r
    have hT : pTerm2 pExp ts =
        some (makeBinaryExpression f (opStar (pAtom pExp) mulopTok tsb.length tsb).1.1
            (opStar (pAtom pExp) mulopTok tsb.length tsb).1.2,
          (opStar (pAtom pExp) mulopTok tsb.length tsb).2) := by
      simp only [pTerm2, hat]
    rw [hT]
    simp only [Option.some.injEq, Prod.mk.injEq]
    have hdecomp := flat_star_decomp (pAtom_consumes hC) tsb.length tsb le_rfl
    have hstuck2 := opStar_stuck (pAtom_consumes hC) mulopTok tsb.length tsb tsb.length
      le_rfl le_rfl
    obtain ⟨ihrem, ihhead, ihfold⟩ := add_level_eq hC
      ((opStar (pAtom pExp) mulopTok tsb.length tsb).2).length
      (opStar (pAtom pExp) mulopTok tsb.length tsb).2 le_rfl hstuck2
    rw [hdecomp]
    have hmlen : (opStar (pAtom pExp) mulopTok tsb.length tsb).1.1.length =
        (opStar (pAtom pExp) mulopTok tsb.length tsb).1.2.length :=
      opStar_len (pAtom pExp) mulopTok tsb.length tsb
    refine ⟨?_, ihrem.symm⟩
    rw [ihfold]
    rw [expFold, List.zip_append hmlen]
    have hterm := termFold_muls
      ((opStar (pAtom pExp) mulopTok tsb.length tsb).1.1.zip
        (opStar (pAtom pExp) mulopTok tsb.length tsb).1.2) f
      (((opStar (pAtom pExp) binopTok
          ((opStar (pAtom pExp) mulopTok tsb.length tsb).2).length
          (opStar (pAtom pExp) mulopTok tsb.length tsb).2).1.1).zip
        ((opStar (pAtom pExp) binopTok
          ((opStar (pAtom pExp) mulopTok tsb.length tsb).2).length
          (opStar (pAtom pExp) mulopTok tsb.length tsb).2).1.2))
      (fun p hp => opStar_ops_mem (fun t o h => mulopTok_prec h) (pAtom pExp)
        tsb.length tsb p.1 (List.of_mem_zip hp).1)
      (by
        intro o2 x2 ps' hcons hne
        rcases ihhead with hnil | ⟨o3, os3, heq3, hprec3⟩
        · rw [hnil] at hcons; simp at hcons
        · rw [heq3] at hcons
          cases hdr : (opStar (pAtom pExp) binopTok
              ((opStar (pAtom pExp) mulopTok tsb.length tsb).2).length
              (opStar (pAtom pExp) mulopTok tsb.length tsb).2).1.2 with
          | nil => rw [hdr] at hcons; simp at hcons
          | cons rr rrs =>
            rw [hdr, List.zip_cons_cons] at hcons
            injection hcons with h4 h5
            injection h4 with h6 h7
            rw [← h6, hprec3] at hne
            injection hne with hne
            omega)
    rw [hterm]
    rw [makeBinaryExpression_eq_foldl _ f _ (le_of_eq hmlen)]

theorem pExp4_eq_pExp2 : ∀ (d : Nat) (ts : List Token), pExp4 d ts = pExp2 d ts := by
  intro d
  induction d with
  | zero => intro ts; rfl
  | succ d ih =>
    intro ts
    have hfun : pExp4 d = pExp2 d := funext ih
    rw [pExp4, pExp2, hfun, pExpCore4_eq_pExpCoreR,
      pExpCore2_eq_pExpCoreR (pExp2_consumes d)]

/-!
## Cross-variant parse equality
-/

theorem parseWith_congr {p q : Nat → List Token → Option (Expr × List Token)}
    (h : ∀ d ts, p d ts = q d ts) (s : String) : parseWith p s = parseWith q s := by
  rw [parseWith, parseWith]
  cases tokenize s with
  | none => rfl
  | some ts => simp only [h]

theorem parse1_eq_parse2 (s : String) : parse1 s = parse2 s :=
  parseWith_congr pExp1_eq_pExp2 s

theorem parse3_eq_parse2 (s : String) : parse3 s = parse2 s :=
  parseWith_congr pExp3_eq_pExp2 s

theorem parse4_eq_parse2 (s : String) : parse4 s = parse2 s :=
  parseWith_congr pExp4_eq_pExp2 s

/-!
## Character-class facts

The tokenizer branches on `isWhitespace`, `isDigit`, `isAlpha` in that
order; these lemmas discharge the earlier branches for digit and letter
heads.
-/

/-- C1: for every one of the four grammar/semantics pairs, parsing
`"x + 2 * 3"` and rendering with `toString` yields exactly
`"(+ x (* 2 3))"`, and parsing `"x * 2 + 3"` yields exactly
`"(+ (* x 2) 3)"` — multiplicative operators bind tighter than additive
ones in every variant. -/
theorem claim1_precedence_examples :
    run1 "x + 2 * 3" = some "(+ x (* 2 3))" ∧
    run2 "x + 2 * 3" = some "(+ x (* 2 3))" ∧
    run3 "x + 2 * 3" = some "(+ x (* 2 3))" ∧
    run4 "x + 2 * 3" = some "(+ x (* 2 3))" ∧
    run1 "x * 2 + 3" = some "(+ (* x 2) 3)" ∧
    run2 "x * 2 + 3" = some "(+ (* x 2) 3)" ∧
    run3 "x * 2 + 3" = some "(+ (* x 2) 3)" ∧
    run4 "x * 2 + 3" = some "(+ (* x 2) 3)" :=
  ⟨rfl, rfl, rfl, rfl, rfl, rfl, rfl, rfl⟩

/-- C2: for every source string accepted by all four grammars, the four
variants produce trees whose `toString` renderings are identical, character
for character. -/
theorem claim2_cross_variant_equivalence (s : String) (t1 t2 t3 t4 : Program)
    (h1 : parse1 s = some t1) (h2 : parse2 s = some t2) (h3 : parse3 s = some t3)
    (h4 : parse4 s = some t4) :
    t1.render = t2.render ∧ t2.render = t3.render ∧ t3.render = t4.render := by
  rw [parse1_eq_parse2 s, h2] at h1
  rw [parse3_eq_parse2 s, h2] at h3
  rw [parse4_eq_parse2 s, h2] at h4
  injection h1 with h1
  injection h3 with h3
  injection h4 with h4
  subst h1; subst h3; subst h4
  exact ⟨rfl, rfl, rfl⟩

/-- Witness for C2 at the source `"x + 2 * 3"`, accepted by all four
grammars with this tree. -/
theorem claim2_witness :
    (Program.mk (Expr.BinaryExpression (Expr.Identifier "x") "+"
        (Expr.BinaryExpression (Expr.IntegerLiteral 2) "*"
          (Expr.IntegerLiteral 3)))).render =
      (Program.mk (Expr.BinaryExpression (Expr.Identifier "x") "+"
        (Expr.BinaryExpression (Expr.IntegerLiteral 2) "*"
          (Expr.IntegerLiteral 3)))).render ∧
    (Program.mk (Expr.BinaryExpression (Expr.Identifier "x") "+"
        (Expr.BinaryExpression (Expr.IntegerLiteral 2) "*"
          (Expr.IntegerLiteral 3)))).render =
      (Program.mk (Expr.BinaryExpression (Expr.Identifier "x") "+"
        (Expr.BinaryExpression (Expr.IntegerLiteral 2) "*"
          (Expr.IntegerLiteral 3)))).render ∧
    (Program.mk (Expr.BinaryExpression (Expr.Identifier "x") "+"
        (Expr.BinaryExpression (Expr.IntegerLiteral 2) "*"
          (Expr.IntegerLiteral 3)))).render =
      (Program.mk (Expr.BinaryExpression (Expr.Identifier "x") "+"
        (Expr.BinaryExpression (Expr.IntegerLiteral 2) "*"
          (Expr.IntegerLiteral 3)))).render :=
  claim2_cross_variant_equivalence "x + 2 * 3" _ _ _ _ rfl rfl rfl rfl

/-- Counterexample to C3 as stated: the spec's fixed table makes `**`
right-associative, but the resolver folds it left-to-right; it consults no
associativity table at all. -/
theorem claim3_counterexample :
    (makeBinaryExpression (Expr.IntegerLiteral 2) ["**", "**"]
        [Expr.IntegerLiteral 3, Expr.IntegerLiteral 2]).render = "(** (** 2 3) 2)" ∧
    "(** (** 2 3) 2)" ≠ "(** 2 (** 3 2))" :=
  ⟨rfl, by decide⟩

/-- C3 (amended): the list-to-tree resolver of variants 2 and 3 folds
left-to-right unconditionally, for every operator — it never consults any
associativity table (the code has none), so right-to-left folding never
happens. -/
theorem claim3_left_fold (first : Expr) (ops : List String) (rest : List Expr)
    (h : ops.length ≤ rest.length) :
    makeBinaryExpression first ops rest =
      (ops.zip rest).foldl (fun a p => Expr.BinaryExpression a p.1 p.2) first :=
  makeBinaryExpression_eq_foldl ops first rest h

/-- Witness for C3 at a concrete input. -/
theorem claim3_witness :
    (["+"] : List String).length ≤ ([Expr.IntegerLiteral 1] : List Expr).length ∧
    makeBinaryExpression (Expr.IntegerLiteral 0) ["+"] [Expr.IntegerLiteral 1] =
      ((["+"].zip [Expr.IntegerLiteral 1]).foldl
        (fun a p => Expr.BinaryExpression a p.1 p.2) (Expr.IntegerLiteral 0)) :=
  ⟨by decide,
    claim3_left_fold (Expr.IntegerLiteral 0) ["+"] [Expr.IntegerLiteral 1] (by decide)⟩

/-- Counterexample to C4 as stated: `**` is not registered in the shared
precedence table at all. -/
theorem claim4_counterexample : precedence "**" = none := rfl

/-- C4 (amended): no variant supports exponentiation: `"2 ** 3 ** 2"` is
rejected by all four grammars, and `**` is absent from the precedence table,
which maps only `+ -` to tier 0 and `* /` to tier 1 and records no
associativity. -/
theorem claim4_no_exponentiation :
    precedence "**" = none ∧ precedence "+" = some 0 ∧ precedence "-" = some 0 ∧
    precedence "*" = some 1 ∧ precedence "/" = some 1 ∧
    run1 "2 ** 3 ** 2" = none ∧ run2 "2 ** 3 ** 2" = none ∧
    run3 "2 ** 3 ** 2" = none ∧ run4 "2 ** 3 ** 2" = none :=
  ⟨rfl, rfl, rfl, rfl, rfl, rfl, rfl, rfl, rfl⟩

/-- C7: the precedence-climbing loops of `makeTree` terminate on every
input: with fuel at least `2 * ops.length + 1` the outer loop has reached
its fixed point (so `makeTree`'s canonical fuel computes the limit), and the
loops only ever consume operators from the finite queue. -/
theorem claim7_makeTree_terminates (k : Nat) (l : Expr) (ops : List String)
    (rights : List Expr) (m : Nat) (hk : 2 * ops.length + 1 ≤ k) :
    (mtOuter k l ops rights m).1 = makeTree l ops rights m ∧
    (mtOuter k l ops rights m).2.1.length ≤ ops.length := by
  constructor
  · rw [makeTree,
      (mtIrrel ops.length).1 l ops rights m k (2 * ops.length + 1) le_rfl hk le_rfl]
  · exact ((mtCons k).1 l ops rights m).1

/-- Witness for C7 at a concrete input and fuel. -/
theorem claim7_witness :
    2 * (["+", "*"] : List String).length + 1 ≤ 9 ∧
    ((mtOuter 9 (Expr.IntegerLiteral 1) ["+", "*"]
        [Expr.IntegerLiteral 2, Expr.IntegerLiteral 3] 0).1 =
      makeTree (Expr.IntegerLiteral 1) ["+", "*"]
        [Expr.IntegerLiteral 2, Expr.IntegerLiteral 3] 0 ∧
    (mtOuter 9 (Expr.IntegerLiteral 1) ["+", "*"]
        [Expr.IntegerLiteral 2, Expr.IntegerLiteral 3] 0).2.1.length ≤
      (["+", "*"] : List String).length) :=
  ⟨by decide, claim7_makeTree_terminates 9 (Expr.IntegerLiteral 1) ["+", "*"]
    [Expr.IntegerLiteral 2, Expr.IntegerLiteral 3] 0 (by decide)⟩

/-- Counterexample to C8 as stated: an operator absent from the table is not
rejected — `makeTree` silently returns its first argument, dropping the
operator and its operand, and `makeBinaryExpression` silently treats it as
left-associative. -/
theorem claim8_counterexample :
    makeTree (Expr.Identifier "x") ["%"] [Expr.Identifier "y"] 0 =
      Expr.Identifier "x" ∧
    makeBinaryExpression (Expr.Identifier "x") ["%"] [Expr.Identifier "y"] =
      Expr.BinaryExpression (Expr.Identifier "x") "%" (Expr.Identifier "y") :=
  ⟨rfl, rfl⟩

/-- C8 (amended): an unknown operator is not rejected: `makeTree` stops at
the first operator missing from the table (in JS, `undefined >= n` is
false), returning the tree built so far and silently dropping that operator
and everything after it; `makeBinaryExpression` never consults the table and
folds any operator left-associatively. -/
theorem claim8_unknown_operator (op : String) (h : precedence op = none) :
    (∀ (l : Expr) (ops : List String) (rights : List Expr) (m : Nat),
      makeTree l (op :: ops) rights m = l) ∧
    (∀ x y : Expr, makeBinaryExpression x [op] [y] =
      Expr.BinaryExpression x op y) := by
  constructor
  · intro l ops rights m
    rw [makeTree, mtOuter_cons_none h]
  · intro x y; rfl

/-- Witness for C8 at the unknown operator `"%"`. -/
theorem claim8_witness :
    precedence "%" = none ∧
    makeTree (Expr.Identifier "a") ["%"] [Expr.Identifier "b"] 0 =
      Expr.Identifier "a" ∧
    makeBinaryExpression (Expr.Identifier "a") ["%"] [Expr.Identifier "b"] =
      Expr.BinaryExpression (Expr.Identifier "a") "%" (Expr.Identifier "b") :=
  ⟨rfl,
    (claim8_unknown_operator "%" rfl).1 (Expr.Identifier "a") [] [Expr.Identifier "b"] 0,
    (claim8_unknown_operator "%" rfl).2 (Expr.Identifier "a") (Expr.Identifier "b")⟩

/-- Counterexample to C9 as stated: the helper does not leave its input
sequences unchanged — it empties the operator array, and evaluating the
helper again on the final array states returns a different tree. -/
theorem claim9_counterexample :
    (makeBinaryExpressionS (Expr.IntegerLiteral 0) ["+"]
        [Expr.IntegerLiteral 1]).2.1 ≠ ["+"] ∧
    (makeBinaryExpressionS (Expr.IntegerLiteral 0)
        (makeBinaryExpressionS (Expr.IntegerLiteral 0) ["+"]
          [Expr.IntegerLiteral 1]).2.1
        (makeBinaryExpressionS (Expr.IntegerLiteral 0) ["+"]
          [Expr.IntegerLiteral 1]).2.2).1 ≠
      (makeBinaryExpressionS (Expr.IntegerLiteral 0) ["+"]
        [Expr.IntegerLiteral 1]).1 :=
  ⟨by decide, by decide⟩

/-- C9 (amended): `makeBinaryExpression` destructively consumes its arrays
via `shift()`: on return the operator array is empty and the operand array
has lost one element per operator, so re-evaluating the helper on the
physically same (now consumed) arrays yields the bare first operand rather
than the same tree.  The value computed is still a pure function of the
argument values, and the program's semantic actions stay observationally
pure only because each invocation rebuilds fresh arrays via `tree()`. -/
theorem claim9_destructive_consumption (first : Expr) (ops : List String)
    (rest : List Expr) :
    (makeBinaryExpressionS first ops rest).2.1 = [] ∧
    (makeBinaryExpressionS first ops rest).2.2 = rest.drop ops.length ∧
    (makeBinaryExpressionS first (makeBinaryExpressionS first ops rest).2.1
        (makeBinaryExpressionS first ops rest).2.2).1 = first := by
  have h := makeBinaryExpressionS_state ops first rest
  refine ⟨?_, ?_, ?_⟩
  · rw [h]
  · rw [h]
  · rw [h]; rfl

/-- C10: with an empty operator list both helpers return their first
argument unchanged, and in variants 2-4 a lone integer literal or lone
identifier parses to the leaf node itself wrapped only in `Program`, with no
`BinaryExpression` constructed. -/
theorem claim10_empty_ops_identity :
    (∀ (first : Expr) (rest : List Expr), makeBinaryExpression first [] rest = first) ∧
    (∀ (first : Expr) (rest : List Expr) (m : Nat), makeTree first [] rest m = first) ∧
    parse2 "20" = some ⟨Expr.IntegerLiteral 20⟩ ∧
    parse3 "20" = some ⟨Expr.IntegerLiteral 20⟩ ∧
    parse4 "20" = some ⟨Expr.IntegerLiteral 20⟩ ∧
    parse2 "dog2358" = some ⟨Expr.Identifier "dog2358"⟩ ∧
    parse3 "dog2358" = some ⟨Expr.Identifier "dog2358"⟩ ∧
    parse4 "dog2358" = some ⟨Expr.Identifier "dog2358"⟩ :=
  ⟨fun _ _ => rfl, fun _ _ _ => rfl, rfl, rfl, rfl, rfl, rfl, rfl⟩

end OhmExpr
